import Mathlib

/-!
Verification of the randomized branch-and-bound search in
`find_weak_outputs_skein.cpp` (Skein-SAT).  The C++ source is shallowly
embedded: pure string/CNF construction becomes Lean functions on lists,
the per-candidate stage loop and the per-worker candidate loop become
structural recursions threading explicit state, and the external SAT
solver is abstracted as an oracle assigning each stage a verdict and a
wall-clock runtime.
-/

set_option maxRecDepth 16384

namespace SkeinSAT

/-! ## Instance materialization (`gen_rand_cnf`)

`gen_rand_cnf` reads a stage template (a declared variable count and a
list of base clause lines) and writes a concrete CNF: a `p cnf` header,
the base clauses unchanged, then one unit clause per candidate bit.
The C++ computes the pinned variable as `var_num - rand_output.size() + 1 + i`
where `var_num` is a 32-bit `unsigned` promoted to 64-bit `size_t`, so the
subtraction wraps modulo 2^64. -/

/-- Variable index of the `i`-th appended unit clause, with the C++
`size_t` wrap-around made explicit (2^64 = 18446744073709551616). -/
def pinned_var (var_num len i : ℕ) : ℕ :=
  ((var_num + 18446744073709551616 - len) % 18446744073709551616 + 1 + i) %
    18446744073709551616

/-- The `i`-th unit clause line appended by `gen_rand_cnf`: a minus sign
iff the character is `'0'`, then the pinned variable, then `" 0"`. -/
def unit_clause_line (var_num len i : ℕ) (c : Char) : String :=
  (if c = '0' then "-" else "") ++ Nat.repr (pinned_var var_num len i) ++ " 0"

/-- Lines written by `gen_rand_cnf` to the generated CNF file: the header
`p cnf <var_num> <base + bits>`, the base clauses in order, then one unit
clause per candidate character. -/
def gen_rand_cnf (var_num : ℕ) (base_clauses : List String)
    (rand_output : List Char) : List String :=
  ("p cnf " ++ Nat.repr var_num ++ " " ++
      Nat.repr (base_clauses.length + rand_output.length))
    :: (base_clauses
      ++ (List.range rand_output.length).map
          (fun i => unit_clause_line var_num rand_output.length i
            (rand_output.getD i ' ')))

theorem pinned_var_eq (var_num len i : ℕ) (hlen : len ≤ var_num)
    (hv : var_num < 4294967296) (hi : i < len) :
    pinned_var var_num len i = var_num - len + 1 + i := by
  unfold pinned_var
  omega

theorem gen_rand_cnf_parts (V : ℕ) (clauses : List String) (cand : List Char)
    (hV : 512 ≤ V) (hV2 : V < 4294967296) (hlen : cand.length = 512) :
    (gen_rand_cnf V clauses cand).length = 1 + clauses.length + 512 ∧
    (gen_rand_cnf V clauses cand).head? =
      some ("p cnf " ++ Nat.repr V ++ " " ++ Nat.repr (clauses.length + 512)) ∧
    (∀ i, i < clauses.length →
      (gen_rand_cnf V clauses cand)[1 + i]? = clauses[i]?) ∧
    (∀ i, i < 512 →
      (gen_rand_cnf V clauses cand)[1 + clauses.length + i]? =
        some ((if cand.getD i ' ' = '0' then "-" else "") ++
          Nat.repr (V - 511 + i) ++ " 0")) := by
  refine ⟨?_, ?_, ?_, ?_⟩
  · simp [gen_rand_cnf, hlen]
    omega
  · simp [gen_rand_cnf, hlen]
  · intro i hi
    have h1 : 1 + i = i + 1 := by omega
    rw [gen_rand_cnf, h1]
    simp only [List.getElem?_cons_succ]
    rw [List.getElem?_append, if_pos hi]
  · intro i hi
    have h1 : 1 + clauses.length + i = (clauses.length + i) + 1 := by omega
    rw [gen_rand_cnf, h1]
    simp only [List.getElem?_cons_succ]
    rw [List.getElem?_append, if_neg (by omega)]
    have h2 : clauses.length + i - clauses.length = i := by omega
    have h3 : pinned_var V 512 i = V - 511 + i := by
      rw [pinned_var_eq V 512 i (by omega) hV2 hi]
      omega
    simp [h2, hlen, hi, unit_clause_line, h3]

/-- C1: materializing a template with declared variable count `V` (a 32-bit
unsigned, here `512 ≤ V < 2^32`) and `C` base clauses against a 512-character
candidate yields a header declaring `V` variables and `C + 512` clauses, the
`C` template clauses in order, then 512 unit clauses on variables
`V-511 … V` in ascending order, negated exactly on `'0'` bits. -/
theorem c1_materialization (V : ℕ) (clauses : List String) (cand : List Char)
    (hV : 512 ≤ V) (hV2 : V < 4294967296) (hlen : cand.length = 512) :
    (gen_rand_cnf V clauses cand).length = 1 + clauses.length + 512 ∧
    (gen_rand_cnf V clauses cand).head? =
      some ("p cnf " ++ Nat.repr V ++ " " ++ Nat.repr (clauses.length + 512)) ∧
    (∀ i, i < clauses.length →
      (gen_rand_cnf V clauses cand)[1 + i]? = clauses[i]?) ∧
    (∀ i, i < 512 →
      (gen_rand_cnf V clauses cand)[1 + clauses.length + i]? =
        some ((if cand.getD i ' ' = '0' then "-" else "") ++
          Nat.repr (V - 511 + i) ++ " 0")) :=
  gen_rand_cnf_parts V clauses cand hV hV2 hlen

/-- C1, witness: the general materialization theorem evaluated on a concrete
template (600 variables, one base clause) and the all-zero candidate. -/
theorem c1_materialization_witness :
    (gen_rand_cnf 600 ["1 2 0"] (List.replicate 512 '0')).length = 1 + 1 + 512 ∧
    (gen_rand_cnf 600 ["1 2 0"] (List.replicate 512 '0'))[2]? =
      some ("-" ++ Nat.repr (600 - 511 + 0) ++ " 0") := by
  have h := c1_materialization 600 ["1 2 0"] (List.replicate 512 '0')
    (by omega) (by omega) (by simp)
  refine ⟨h.1, ?_⟩
  have h2 := h.2.2.2 0 (by omega)
  simpa using h2

/-- C8, counterexample: with a 600-variable template, 50 base clauses and a
candidate starting `10110100`, the first two appended unit clauses are
`89 0` (bit `'1'`, positive) and `-90 0` (bit `'0'`, negative) — not
`-89 0` and `90 0` as the claim lists them. -/
theorem c8_counterexample :
    (gen_rand_cnf 600 (List.replicate 50 "1 2 0")
        ("10110100".data ++ List.replicate 504 '0'))[51]? = some "89 0" ∧
    (gen_rand_cnf 600 (List.replicate 50 "1 2 0")
        ("10110100".data ++ List.replicate 504 '0'))[51]? ≠ some "-89 0" ∧
    (gen_rand_cnf 600 (List.replicate 50 "1 2 0")
        ("10110100".data ++ List.replicate 504 '0'))[52]? = some "-90 0" ∧
    (gen_rand_cnf 600 (List.replicate 50 "1 2 0")
        ("10110100".data ++ List.replicate 504 '0'))[52]? ≠ some "90 0" := by
  refine ⟨by decide, by decide, by decide, by decide⟩

/-- C8 as amended: for a stage template with variable count 600 and 50 base
clauses and any candidate starting `10110100`, the header is
`p cnf 600 562` and the unit clauses after the 50 template clauses begin
`89 0`, `-90 0`, `91 0`, `92 0`, `-93 0`, mapping bit `i` to variable
`89 + i` with a negative literal exactly for bit `0`. -/
theorem c8_scenario (clauses : List String) (cand : List Char)
    (hc : clauses.length = 50) (hlen : cand.length = 512)
    (h8 : cand.take 8 = "10110100".data) :
    (gen_rand_cnf 600 clauses cand).head? = some "p cnf 600 562" ∧
    (gen_rand_cnf 600 clauses cand)[51]? = some "89 0" ∧
    (gen_rand_cnf 600 clauses cand)[52]? = some "-90 0" ∧
    (gen_rand_cnf 600 clauses cand)[53]? = some "91 0" ∧
    (gen_rand_cnf 600 clauses cand)[54]? = some "92 0" ∧
    (gen_rand_cnf 600 clauses cand)[55]? = some "-93 0" ∧
    (∀ i, i < 512 →
      (gen_rand_cnf 600 clauses cand)[51 + i]? =
        some ((if cand.getD i ' ' = '0' then "-" else "") ++
          Nat.repr (89 + i) ++ " 0")) := by
  have h := gen_rand_cnf_parts 600 clauses cand (by omega) (by omega) hlen
  have hbit : ∀ i, i < 8 → cand.getD i ' ' = "10110100".data.getD i ' ' := by
    intro i hi
    rw [← h8, List.getD_eq_getElem?_getD, List.getD_eq_getElem?_getD]
    rw [List.getElem?_take, if_pos hi]
  have hunit : ∀ i, i < 512 →
      (gen_rand_cnf 600 clauses cand)[51 + i]? =
        some ((if cand.getD i ' ' = '0' then "-" else "") ++
          Nat.repr (89 + i) ++ " 0") := by
    intro i hi
    have := h.2.2.2 i hi
    rw [hc] at this
    have e1 : 1 + 50 + i = 51 + i := by omega
    have e2 : 600 - 511 + i = 89 + i := by omega
    rw [e1, e2] at this
    exact this
  refine ⟨?_, ?_, ?_, ?_, ?_, ?_, hunit⟩
  · have := h.2.1
    rw [hc] at this
    exact this
  · have := hunit 0 (by omega)
    rw [hbit 0 (by omega)] at this
    simpa using this
  · have := hunit 1 (by omega)
    rw [hbit 1 (by omega)] at this
    simpa using this
  · have := hunit 2 (by omega)
    rw [hbit 2 (by omega)] at this
    simpa using this
  · have := hunit 3 (by omega)
    rw [hbit 3 (by omega)] at this
    simpa using this
  · have := hunit 4 (by omega)
    rw [hbit 4 (by omega)] at this
    simpa using this

/-- C8, witness: the amended scenario theorem evaluated on a concrete
template and candidate. -/
theorem c8_scenario_witness :
    (gen_rand_cnf 600 (List.replicate 50 "1 2 0")
        ("10110100".data ++ List.replicate 504 '0'))[55]? = some "-93 0" ∧
    (gen_rand_cnf 600 (List.replicate 50 "1 2 0")
        ("10110100".data ++ List.replicate 504 '0')).head? =
      some "p cnf 600 562" := by
  have h := c8_scenario (List.replicate 50 "1 2 0")
    ("10110100".data ++ List.replicate 504 '0')
    (by simp) (by simp) (by decide)
  exact ⟨h.2.2.2.2.2.1, h.1⟩

/-! ## Candidate generation (`rand_seq8` / `gen_rand_output`)

The worker's Mersenne-twister draws are abstracted as a stream
`bits : ℕ → Bool` of fair coin results, consumed in order.  `rand_seq8`
repeatedly appends an 8-character block of draws followed by the 8
inverted characters, until the accumulated string reaches `SEQ_LEN`
(512) characters. -/

def SEQ_LEN : ℕ := 512

/-- Character written for one random draw (`sstream8 << rand`). -/
def bitChar (b : Bool) : Char := if b then '1' else '0'

/-- The 16-character block one do-while iteration appends: the 8 draws
starting at stream position `j`, then their inverted characters
(`rand == 1 ? "0" : "1"`). -/
def randBlock (bits : ℕ → Bool) (j : ℕ) : List Char :=
  (List.range 8).map (fun i => bitChar (bits (j + i))) ++
    (List.range 8).map (fun i => bitChar (!bits (j + i)))

/-- The do-while loop of `rand_seq8`: append a block, repeat while the
accumulated string is still shorter than `SEQ_LEN`. -/
def rand_seq8_go (bits : ℕ → Bool) (j : ℕ) (acc : List Char) : List Char :=
  if (acc ++ randBlock bits j).length < SEQ_LEN then
    rand_seq8_go bits (j + 8) (acc ++ randBlock bits j)
  else
    acc ++ randBlock bits j
termination_by SEQ_LEN - acc.length
decreasing_by
  simp only [randBlock, SEQ_LEN, List.length_append, List.length_map,
    List.length_range] at *
  omega

def rand_seq8 (bits : ℕ → Bool) : List Char := rand_seq8_go bits 0 []

def gen_rand_output (bits : ℕ → Bool) : List Char := rand_seq8 bits

/-- Inversion on the two characters actually produced. -/
def flipChar (c : Char) : Char := if c = '0' then '1' else '0'

/-- The candidate shape asserted by the spec: a concatenation of `n`
consecutive 16-character blocks in which the second 8 characters are the
character-wise complement of the first 8. -/
def composedOfBlocks (s : List Char) (n : ℕ) : Prop :=
  ∃ blocks : List (List Char), blocks.length = n ∧
    (∀ b ∈ blocks, b.length = 16 ∧ b.drop 8 = (b.take 8).map flipChar) ∧
    s = blocks.flatten

theorem randBlock_length (bits : ℕ → Bool) (j : ℕ) :
    (randBlock bits j).length = 16 := by
  simp [randBlock]

theorem flipChar_bitChar (b : Bool) : flipChar (bitChar b) = bitChar (!b) := by
  cases b <;> rfl

theorem flatten_length_of_blocks (blocks : List (List Char))
    (h : ∀ b ∈ blocks, b.length = 16) :
    blocks.flatten.length = 16 * blocks.length := by
  induction blocks with
  | nil => simp
  | cons b bs ih =>
    have hb := h b (by simp)
    have hbs := ih (fun c hc => h c (by simp [hc]))
    simp [hb, hbs]
    omega

theorem rand_seq8_go_eq (bits : ℕ → Bool) :
    ∀ k, 1 ≤ k → k ≤ 32 → ∀ j acc, acc.length = 16 * (32 - k) →
      rand_seq8_go bits j acc =
        acc ++ ((List.range' j k 8).map (randBlock bits)).flatten := by
  intro k
  induction k with
  | zero => omega
  | succ k ih =>
    intro _ hk32 j acc hacc
    rw [rand_seq8_go]
    rcases Nat.eq_zero_or_pos k with hk0 | hkpos
    · subst hk0
      rw [if_neg]
      · simp [List.range']
      · simp only [List.length_append, randBlock_length, SEQ_LEN]
        omega
    · rw [if_pos]
      · rw [ih hkpos (by omega) (j + 8) (acc ++ randBlock bits j)
          (by simp [randBlock_length]; omega)]
        simp [List.range']
      · simp only [List.length_append, randBlock_length, SEQ_LEN]
        omega

theorem rand_seq8_eq (bits : ℕ → Bool) :
    rand_seq8 bits = ((List.range' 0 32 8).map (randBlock bits)).flatten := by
  rw [rand_seq8, rand_seq8_go_eq bits 32 (by omega) (by omega) 0 [] (by simp)]
  simp

theorem rand_seq8_length (bits : ℕ → Bool) : (rand_seq8 bits).length = 512 := by
  rw [rand_seq8_eq,
    flatten_length_of_blocks _ (by simp +contextual [randBlock_length])]
  simp

theorem randBlock_complement (bits : ℕ → Bool) (j : ℕ) :
    (randBlock bits j).drop 8 = ((randBlock bits j).take 8).map flipChar := by
  rw [randBlock, List.drop_left' (by simp), List.take_left' (by simp)]
  simp [List.map_map, Function.comp, flipChar_bitChar]

/-- C5, counterexample: the generated candidate has 512 characters, so it
cannot be a concatenation of 64 sixteen-character blocks (that would take
1024 characters); shown at the concrete all-zero draw stream. -/
theorem c5_counterexample :
    (rand_seq8 (fun _ => false)).length = 512 ∧
    ¬ composedOfBlocks (rand_seq8 (fun _ => false)) 64 := by
  refine ⟨rand_seq8_length _, ?_⟩
  rintro ⟨blocks, hn, hb, heq⟩
  have h1 : (rand_seq8 (fun _ => false)).length = 16 * 64 := by
    rw [heq, flatten_length_of_blocks blocks (fun b hbmem => (hb b hbmem).1), hn]
  rw [rand_seq8_length] at h1
  omega

/-- C5 as amended: every generated candidate bit string has length exactly
512 and is composed of 32 (not 64) consecutive 16-character blocks, where
each block is an 8-character random draw followed by its character-wise
complement. -/
theorem c5_candidate_structure (bits : ℕ → Bool) :
    (gen_rand_output bits).length = 512 ∧
    gen_rand_output bits = ((List.range' 0 32 8).map (randBlock bits)).flatten ∧
    composedOfBlocks (gen_rand_output bits) 32 := by
  refine ⟨rand_seq8_length bits, rand_seq8_eq bits, ?_⟩
  refine ⟨(List.range' 0 32 8).map (randBlock bits), by simp, ?_, rand_seq8_eq bits⟩
  intro b hbmem
  rcases List.mem_map.mp hbmem with ⟨j, _, rfl⟩
  exact ⟨randBlock_length bits j, randBlock_complement bits j⟩

/-! ## Verdict classification (`read_solver_result`)

The solver's log is modelled as `Option (List String)`: `none` when the
file cannot be opened (the C++ calls `exit(EXIT_FAILURE)`, modelled as
`Except.error ()`), `some lines` otherwise.  The scan mirrors
`str.find(marker) != string::npos` on each line in order. -/

/-- The three-valued solver verdict (`enum result` in the source). -/
inductive result where
  | UNSAT : result
  | SAT : result
  | INTERR : result
deriving DecidableEq, Repr

/-- Substring test modelling `std::string::find(pat) != npos`. -/
def strContains (s pat : String) : Bool :=
  (List.range (s.data.length + 1)).any
    (fun i => (s.data.drop i).take pat.data.length == pat.data)

def sat_marker : String := "s SATISFIABLE"

def unsat_marker : String := "s UNSATISFIABLE"

/-- The line scan of `read_solver_result`: the first line containing a
marker decides the verdict (the satisfiable marker is tested first on
each line); no marker anywhere gives `INTERR`. -/
def scanVerdict : List String → result
  | [] => .INTERR
  | l :: ls =>
    if strContains l sat_marker then .SAT
    else if strContains l unsat_marker then .UNSAT
    else scanVerdict ls

/-- `read_solver_result`: fatal (`Except.error`) when the log cannot be
opened, otherwise the scanned verdict. -/
def read_solver_result : Option (List String) → Except Unit result
  | none => .error ()
  | some lines => .ok (scanVerdict lines)

/-- C7: an unopenable result log is a fatal failure; a log in which no
line contains either marker yields the non-fatal `INTERR`; otherwise the
result is decided at the first line containing a marker — `SAT` when that
line contains the satisfiable marker, `UNSAT` when it contains only the
unsatisfiable one. -/
theorem c7_read_solver_result :
    read_solver_result none = .error () ∧
    (∀ lines : List String,
      (∀ l ∈ lines, strContains l sat_marker = false ∧
        strContains l unsat_marker = false) →
      read_solver_result (some lines) = .ok .INTERR) ∧
    (∀ pre line post,
      (∀ l ∈ pre, strContains l sat_marker = false ∧
        strContains l unsat_marker = false) →
      (strContains line sat_marker = true ∨
        strContains line unsat_marker = true) →
      read_solver_result (some (pre ++ line :: post)) =
        .ok (if strContains line sat_marker then .SAT else .UNSAT)) := by
  have hskip : ∀ pre rest,
      (∀ l ∈ pre, strContains l sat_marker = false ∧
        strContains l unsat_marker = false) →
      scanVerdict (pre ++ rest) = scanVerdict rest := by
    intro pre rest hpre
    induction pre with
    | nil => simp
    | cons l ls ih =>
      have hl := hpre l (by simp)
      rw [List.cons_append, scanVerdict, hl.1, hl.2]
      simp only [Bool.false_eq_true, if_false]
      exact ih (fun x hx => hpre x (by simp [hx]))
  refine ⟨rfl, ?_, ?_⟩
  · intro lines hnone
    have := hskip lines [] hnone
    simp only [List.append_nil] at this
    simp [read_solver_result, this, scanVerdict]
  · intro pre line post hpre hline
    simp only [read_solver_result, hskip pre (line :: post) hpre]
    rw [scanVerdict]
    rcases hline with hs | hu
    · rw [hs]
      simp
    · rw [hu]
      by_cases hs : strContains line sat_marker <;> simp [hs]

/-- C7, witness: the verdict theorem applied to a concrete log whose first
marker line carries the unsatisfiable marker, and to the unopenable log. -/
theorem c7_read_solver_result_witness :
    read_solver_result (some ["c comment", "s UNSATISFIABLE", "s SATISFIABLE"]) =
      .ok .UNSAT ∧
    read_solver_result none = .error () := by
  have h := c7_read_solver_result
  have h3 := h.2.2 ["c comment"] "s UNSATISFIABLE" ["s SATISFIABLE"]
    (by decide) (by decide)
  constructor
  · rw [show (["c comment", "s UNSATISFIABLE", "s SATISFIABLE"] :
        List String) = ["c comment"] ++ "s UNSATISFIABLE" :: ["s SATISFIABLE"]
        from rfl]
    rw [h3, show strContains "s UNSATISFIABLE" sat_marker = false from by decide]
    simp
  · exact h.1

/-! ## The per-candidate stage loop and the per-worker candidate loop

The inner `for (operat_num=3; operat_num<=7; ...)` loop of `main` is
embedded as a structural recursion over the remaining stage list,
threading `cur_total_runtime`, `unsat_inst` and the list of stages whose
instance was materialized and handed to the solver.  The external solver
is an oracle `ℕ → result × ℚ` giving each stage a verdict and a
wall-clock runtime.  A worker's sequence of candidate evaluations (the
outer `for (;;)` loop) threads `min_total_solving_runtime`, initially
`-1`, through `boundAfter`. -/

def MAX_UNSAT_INST : ℕ := 3

/-- Why a candidate evaluation stopped before completing stage 7. -/
inductive Reason where
  | pruned : Reason
  | inconclusive : Reason
  | too_many_unsat : Reason
deriving DecidableEq, Repr

/-- Terminal disposition of one candidate evaluation (`is_break` false
means all five stages ran to a verdict). -/
inductive Disposition where
  | completed : Disposition
  | abandoned : Reason → Disposition
deriving DecidableEq, Repr

/-- Observable state of one candidate evaluation: cumulative measured
runtime, count of unsatisfiable verdicts, the stages whose instance was
generated and solved, and the terminal disposition. -/
structure EvalOut where
  cur_total_runtime : ℚ
  unsat_inst : ℕ
  executed : List ℕ
  disposition : Disposition
deriving DecidableEq, Repr

/-- The stage loop body: at entry to each stage, prune when
`min_total_solving_runtime > 0 && cur_total_runtime >= min_total_solving_runtime`;
otherwise solve, accumulate the runtime, break on `INTERR`, count `UNSAT`
verdicts and break once they exceed `MAX_UNSAT_INST`. -/
def runStages (min_total : ℚ) (oracle : ℕ → result × ℚ) :
    List ℕ → ℚ → ℕ → List ℕ → EvalOut
  | [], cur, unsat, done => ⟨cur, unsat, done, .completed⟩
  | n :: rest, cur, unsat, done =>
    if 0 < min_total ∧ min_total ≤ cur then
      ⟨cur, unsat, done, .abandoned .pruned⟩
    else
      match (oracle n).1 with
      | .INTERR =>
        ⟨cur + (oracle n).2, unsat, done ++ [n], .abandoned .inconclusive⟩
      | .UNSAT =>
        if MAX_UNSAT_INST < unsat + 1 then
          ⟨cur + (oracle n).2, unsat + 1, done ++ [n],
            .abandoned .too_many_unsat⟩
        else
          runStages min_total oracle rest (cur + (oracle n).2) (unsat + 1)
            (done ++ [n])
      | .SAT =>
        if MAX_UNSAT_INST < unsat then
          ⟨cur + (oracle n).2, unsat, done ++ [n], .abandoned .too_many_unsat⟩
        else
          runStages min_total oracle rest (cur + (oracle n).2) unsat
            (done ++ [n])

/-- The five difficulty stages, in the order `main` iterates them. -/
def STAGES : List ℕ := [3, 4, 5, 6, 7]

/-- One candidate evaluation: the stage loop started at stage 3 with zero
cumulative runtime, zero unsatisfiable count and nothing executed. -/
def evalCandidate (min_total : ℚ) (oracle : ℕ → result × ℚ) : EvalOut :=
  runStages min_total oracle STAGES 0 0 []

/-- The best-bound update after one candidate: only a non-broken (fully
completed) evaluation whose runtime beats the current bound (or an unset
bound, sentinel `< 0`) lowers `min_total_solving_runtime`. -/
def updateBound (min_total : ℚ) (out : EvalOut) : ℚ :=
  if out.disposition = .completed ∧
      (min_total < 0 ∨ out.cur_total_runtime < min_total) then
    out.cur_total_runtime
  else min_total

/-- The worker's bound after `k` candidate evaluations; `oracle2 k n` is
the verdict/runtime of stage `n` for the `k`-th candidate.  The bound
starts at the sentinel `-1`. -/
def boundAfter (oracle2 : ℕ → ℕ → result × ℚ) : ℕ → ℚ
  | 0 => -1
  | k + 1 =>
    updateBound (boundAfter oracle2 k)
      (evalCandidate (boundAfter oracle2 k) (oracle2 k))

/-- Number of stages in `l` on which the oracle answers `UNSAT`. -/
def countUnsat (oracle : ℕ → result × ℚ) (l : List ℕ) : ℕ :=
  (l.filter (fun n => decide ((oracle n).1 = result.UNSAT))).length

/-- Total oracle runtime over the stages in `l`. -/
def sumRT (oracle : ℕ → result × ℚ) (l : List ℕ) : ℚ :=
  (l.map (fun n => (oracle n).2)).sum

theorem countUnsat_nil (oracle : ℕ → result × ℚ) : countUnsat oracle [] = 0 :=
  rfl

theorem countUnsat_cons_unsat (oracle : ℕ → result × ℚ) (n : ℕ) (l : List ℕ)
    (h : (oracle n).1 = result.UNSAT) :
    countUnsat oracle (n :: l) = countUnsat oracle l + 1 := by
  simp [countUnsat, List.filter, h]

theorem countUnsat_cons_other (oracle : ℕ → result × ℚ) (n : ℕ) (l : List ℕ)
    (h : (oracle n).1 ≠ result.UNSAT) :
    countUnsat oracle (n :: l) = countUnsat oracle l := by
  simp [countUnsat, List.filter, h]

theorem countUnsat_append (oracle : ℕ → result × ℚ) (l m : List ℕ) :
    countUnsat oracle (l ++ m) = countUnsat oracle l + countUnsat oracle m := by
  simp [countUnsat]

theorem sumRT_nil (oracle : ℕ → result × ℚ) : sumRT oracle [] = 0 := rfl

theorem sumRT_cons (oracle : ℕ → result × ℚ) (n : ℕ) (l : List ℕ) :
    sumRT oracle (n :: l) = (oracle n).2 + sumRT oracle l := by
  simp [sumRT]

/-- Master invariant of the stage loop: starting with at most three
unsatisfiable verdicts, the loop executes an initial segment `t` of the
remaining stages, accumulates exactly the runtimes and unsatisfiable
verdicts of `t`, stops with `too_many_unsat` exactly when the count
reaches four (at the stage making it four), prunes only under a strictly
positive bound and before the last stage, completes exactly on the whole
list, and stops with `inconclusive` exactly at an `INTERR` stage. -/
theorem runStages_master (min_total : ℚ) (oracle : ℕ → result × ℚ) :
    ∀ (l : List ℕ) (cur : ℚ) (unsat : ℕ) (done : List ℕ), unsat ≤ 3 →
      ∃ t : List ℕ,
        (runStages min_total oracle l cur unsat done).executed = done ++ t ∧
        t = l.take t.length ∧
        (runStages min_total oracle l cur unsat done).cur_total_runtime =
          cur + sumRT oracle t ∧
        (runStages min_total oracle l cur unsat done).unsat_inst =
          unsat + countUnsat oracle t ∧
        unsat + countUnsat oracle t ≤ 4 ∧
        ((runStages min_total oracle l cur unsat done).disposition =
            .abandoned .too_many_unsat ↔ unsat + countUnsat oracle t = 4) ∧
        ((runStages min_total oracle l cur unsat done).disposition =
            .abandoned .too_many_unsat →
          ∃ t0 n, t = t0 ++ [n] ∧ (oracle n).1 = result.UNSAT ∧
            unsat + countUnsat oracle t0 = 3) ∧
        ((runStages min_total oracle l cur unsat done).disposition =
            .abandoned .pruned → t.length < l.length ∧ 0 < min_total) ∧
        ((runStages min_total oracle l cur unsat done).disposition =
            .completed → t = l) ∧
        ((runStages min_total oracle l cur unsat done).disposition =
            .abandoned .inconclusive →
          ∃ t0 n, t = t0 ++ [n] ∧ (oracle n).1 = result.INTERR) := by
  intro l
  induction l with
  | nil =>
    intro cur unsat done hun
    refine ⟨[], ?_, ?_, ?_, ?_, ?_, ?_, ?_, ?_, ?_, ?_⟩ <;>
      simp [runStages, countUnsat_nil, sumRT_nil]
    · omega
    · omega
  | cons n rest ih =>
    intro cur unsat done hun
    by_cases hpr : 0 < min_total ∧ min_total ≤ cur
    · have hrun : runStages min_total oracle (n :: rest) cur unsat done =
          ⟨cur, unsat, done, .abandoned .pruned⟩ := by
        simp only [runStages, if_pos hpr]
      refine ⟨[], ?_, ?_, ?_, ?_, ?_, ?_, ?_, ?_, ?_, ?_⟩ <;> (try rw [hrun]) <;>
        simp [countUnsat_nil, sumRT_nil]
      · omega
      · omega
      · exact hpr.1
    · cases hres : (oracle n).1 with
      | INTERR =>
        have hrun : runStages min_total oracle (n :: rest) cur unsat done =
            ⟨cur + (oracle n).2, unsat, done ++ [n], .abandoned .inconclusive⟩ := by
          simp only [runStages, if_neg hpr, hres]
        refine ⟨[n], ?_, ?_, ?_, ?_, ?_, ?_, ?_, ?_, ?_, ?_⟩ <;> (try rw [hrun]) <;>
          simp [countUnsat_cons_other oracle n [] (by simp [hres]),
            countUnsat_nil, sumRT_cons, sumRT_nil]
        · omega
        · omega
        · exact ⟨[], n, rfl, hres⟩
      | UNSAT =>
        by_cases hfull : MAX_UNSAT_INST < unsat + 1
        · have hu3 : unsat = 3 := by
            simp only [MAX_UNSAT_INST] at hfull
            omega
          have hrun : runStages min_total oracle (n :: rest) cur unsat done =
              ⟨cur + (oracle n).2, unsat + 1, done ++ [n],
                .abandoned .too_many_unsat⟩ := by
            simp only [runStages, if_neg hpr, hres, if_pos hfull]
          refine ⟨[n], ?_, ?_, ?_, ?_, ?_, ?_, ?_, ?_, ?_, ?_⟩ <;> (try rw [hrun]) <;>
            simp [countUnsat_cons_unsat oracle n [] hres, countUnsat_nil,
              sumRT_cons, sumRT_nil]
          · omega
          · omega
          · exact ⟨[], n, rfl, hres, by simp [countUnsat_nil, hu3]⟩
        · have hrec : runStages min_total oracle (n :: rest) cur unsat done =
              runStages min_total oracle rest (cur + (oracle n).2) (unsat + 1)
                (done ++ [n]) := by
            simp only [runStages, if_neg hpr, hres, if_neg hfull]
          have hun1 : unsat + 1 ≤ 3 := by
            simp only [MAX_UNSAT_INST] at hfull
            omega
          obtain ⟨t, h1, h2, h3, h4, h5, h6, h7, h8, h9, h10⟩ :=
            ih (cur + (oracle n).2) (unsat + 1) (done ++ [n]) hun1
          have hcnt : countUnsat oracle (n :: t) = countUnsat oracle t + 1 :=
            countUnsat_cons_unsat oracle n t hres
          refine ⟨n :: t, ?_, ?_, ?_, ?_, ?_, ?_, ?_, ?_, ?_, ?_⟩ <;> (try rw [hrec])
          · rw [h1]
            simp
          · simp only [List.length_cons, List.take_succ_cons]
            rw [← h2]
          · rw [h3, sumRT_cons]
            ring
          · rw [h4, hcnt]
            omega
          · rw [hcnt]
            omega
          · rw [h6, hcnt]
            constructor <;> intro <;> omega
          · intro hd
            obtain ⟨t0, m, ht, hm, hc⟩ := h7 hd
            refine ⟨n :: t0, m, by simp [ht], hm, ?_⟩
            rw [countUnsat_cons_unsat oracle n t0 hres]
            omega
          · intro hd
            obtain ⟨hlt, hmin⟩ := h8 hd
            exact ⟨by simpa using Nat.succ_lt_succ hlt, hmin⟩
          · intro hd
            rw [h9 hd]
          · intro hd
            obtain ⟨t0, m, ht, hm⟩ := h10 hd
            exact ⟨n :: t0, m, by simp [ht], hm⟩
      | SAT =>
        have hfull : ¬ MAX_UNSAT_INST < unsat := by
          simp only [MAX_UNSAT_INST]
          omega
        have hrec : runStages min_total oracle (n :: rest) cur unsat done =
            runStages min_total oracle rest (cur + (oracle n).2) unsat
              (done ++ [n]) := by
          simp only [runStages, if_neg hpr, hres, if_neg hfull]
        obtain ⟨t, h1, h2, h3, h4, h5, h6, h7, h8, h9, h10⟩ :=
          ih (cur + (oracle n).2) unsat (done ++ [n]) hun
        have hcnt : countUnsat oracle (n :: t) = countUnsat oracle t :=
          countUnsat_cons_other oracle n t (by simp [hres])
        refine ⟨n :: t, ?_, ?_, ?_, ?_, ?_, ?_, ?_, ?_, ?_, ?_⟩ <;> (try rw [hrec])
        · rw [h1]
          simp
        · simp only [List.length_cons, List.take_succ_cons]
          rw [← h2]
        · rw [h3, sumRT_cons]
          ring
        · rw [h4, hcnt]
        · rw [hcnt]
          exact h5
        · rw [h6, hcnt]
        · intro hd
          obtain ⟨t0, m, ht, hm, hc⟩ := h7 hd
          refine ⟨n :: t0, m, by simp [ht], hm, ?_⟩
          rw [countUnsat_cons_other oracle n t0 (by simp [hres])]
          exact hc
        · intro hd
          obtain ⟨hlt, hmin⟩ := h8 hd
          exact ⟨by simpa using Nat.succ_lt_succ hlt, hmin⟩
        · intro hd
          rw [h9 hd]
        · intro hd
          obtain ⟨t0, m, ht, hm⟩ := h10 hd
          exact ⟨n :: t0, m, by simp [ht], hm⟩

/-- One-step unfolding: the prune branch. -/
theorem runStages_prune (min_total : ℚ) (oracle : ℕ → result × ℚ) (n : ℕ)
    (rest : List ℕ) (cur : ℚ) (unsat : ℕ) (done : List ℕ)
    (h : 0 < min_total ∧ min_total ≤ cur) :
    runStages min_total oracle (n :: rest) cur unsat done =
      ⟨cur, unsat, done, .abandoned .pruned⟩ := by
  simp only [runStages, if_pos h]

/-- One-step unfolding: an inconclusive verdict breaks immediately. -/
theorem runStages_interr (min_total : ℚ) (oracle : ℕ → result × ℚ) (n : ℕ)
    (rest : List ℕ) (cur : ℚ) (unsat : ℕ) (done : List ℕ)
    (hpr : ¬(0 < min_total ∧ min_total ≤ cur))
    (hres : (oracle n).1 = result.INTERR) :
    runStages min_total oracle (n :: rest) cur unsat done =
      ⟨cur + (oracle n).2, unsat, done ++ [n], .abandoned .inconclusive⟩ := by
  simp only [runStages, if_neg hpr, hres]

/-- One-step unfolding: an unsatisfiable verdict below the threshold. -/
theorem runStages_unsat_step (min_total : ℚ) (oracle : ℕ → result × ℚ)
    (n : ℕ) (rest : List ℕ) (cur : ℚ) (unsat : ℕ) (done : List ℕ)
    (hpr : ¬(0 < min_total ∧ min_total ≤ cur))
    (hres : (oracle n).1 = result.UNSAT) (hu : unsat + 1 ≤ 3) :
    runStages min_total oracle (n :: rest) cur unsat done =
      runStages min_total oracle rest (cur + (oracle n).2) (unsat + 1)
        (done ++ [n]) := by
  simp only [runStages, if_neg hpr, hres,
    if_neg (show ¬ MAX_UNSAT_INST < unsat + 1 by simp only [MAX_UNSAT_INST]; omega)]

/-- One-step unfolding: a satisfiable verdict. -/
theorem runStages_sat_step (min_total : ℚ) (oracle : ℕ → result × ℚ)
    (n : ℕ) (rest : List ℕ) (cur : ℚ) (unsat : ℕ) (done : List ℕ)
    (hpr : ¬(0 < min_total ∧ min_total ≤ cur))
    (hres : (oracle n).1 = result.SAT) (hu : unsat ≤ 3) :
    runStages min_total oracle (n :: rest) cur unsat done =
      runStages min_total oracle rest (cur + (oracle n).2) unsat
        (done ++ [n]) := by
  simp only [runStages, if_neg hpr, hres,
    if_neg (show ¬ MAX_UNSAT_INST < unsat by simp only [MAX_UNSAT_INST]; omega)]

/-- The master invariant specialized to a full candidate evaluation. -/
theorem evalCandidate_master (min_total : ℚ) (oracle : ℕ → result × ℚ) :
    ∃ t : List ℕ,
      (evalCandidate min_total oracle).executed = t ∧
      t = STAGES.take t.length ∧
      (evalCandidate min_total oracle).cur_total_runtime = sumRT oracle t ∧
      (evalCandidate min_total oracle).unsat_inst = countUnsat oracle t ∧
      countUnsat oracle t ≤ 4 ∧
      ((evalCandidate min_total oracle).disposition =
          .abandoned .too_many_unsat ↔ countUnsat oracle t = 4) ∧
      ((evalCandidate min_total oracle).disposition =
          .abandoned .too_many_unsat →
        ∃ t0 n, t = t0 ++ [n] ∧ (oracle n).1 = result.UNSAT ∧
          countUnsat oracle t0 = 3) ∧
      ((evalCandidate min_total oracle).disposition = .abandoned .pruned →
        t.length < 5 ∧ 0 < min_total) ∧
      ((evalCandidate min_total oracle).disposition = .completed →
        t = STAGES) ∧
      ((evalCandidate min_total oracle).disposition =
          .abandoned .inconclusive →
        ∃ t0 n, t = t0 ++ [n] ∧ (oracle n).1 = result.INTERR) := by
  obtain ⟨t, h1, h2, h3, h4, h5, h6, h7, h8, h9, h10⟩ :=
    runStages_master min_total oracle STAGES 0 0 [] (by omega)
  refine ⟨t, by simpa using h1, h2, by simpa using h3, by simpa using h4,
    by simpa using h5, by simpa using h6, ?_, ?_, h9, h10⟩
  · intro hd
    obtain ⟨t0, n, ht, hn, hc⟩ := h7 hd
    exact ⟨t0, n, ht, hn, by simpa using hc⟩
  · intro hd
    have := h8 hd
    exact ⟨by simpa [STAGES] using this.1, this.2⟩

/-- C3: a candidate evaluation is abandoned with `too_many_unsat` exactly
when the number of unsatisfiable verdicts among its executed stages is 4
(the fixed threshold `MAX_UNSAT_INST = 3` strictly exceeded), the last
executed stage is the one whose unsatisfiable verdict made the count
reach 4 (exactly 3 among the earlier stages), and the count never goes
beyond 4. -/
theorem c3_too_many_unsat (min_total : ℚ) (oracle : ℕ → result × ℚ) :
    ((evalCandidate min_total oracle).disposition =
        .abandoned .too_many_unsat ↔
      countUnsat oracle (evalCandidate min_total oracle).executed = 4) ∧
    ((evalCandidate min_total oracle).disposition =
        .abandoned .too_many_unsat →
      ∃ done n, (evalCandidate min_total oracle).executed = done ++ [n] ∧
        (oracle n).1 = result.UNSAT ∧ countUnsat oracle done = 3) ∧
    (evalCandidate min_total oracle).unsat_inst =
      countUnsat oracle (evalCandidate min_total oracle).executed ∧
    (evalCandidate min_total oracle).unsat_inst ≤ 4 := by
  obtain ⟨t, h1, h2, h3, h4, h5, h6, h7, h8, h9, h10⟩ :=
    evalCandidate_master min_total oracle
  refine ⟨by rw [h1]; exact h6, ?_, by rw [h1, h4], by rw [h4]; omega⟩
  intro hd
  obtain ⟨t0, n, ht, hn, hc⟩ := h7 hd
  exact ⟨t0, n, by rw [h1, ht], hn, hc⟩

/-- C3, witness: with an oracle answering `UNSAT` at every stage, the
evaluation stops with `too_many_unsat` and exactly 4 unsatisfiable
verdicts among the executed stages. -/
theorem c3_too_many_unsat_witness :
    countUnsat (fun _ => (result.UNSAT, 1))
      (evalCandidate (-1) (fun _ => (result.UNSAT, 1))).executed = 4 :=
  (c3_too_many_unsat (-1) (fun _ => (result.UNSAT, 1))).1.mp
    (by norm_num [evalCandidate, STAGES, runStages, MAX_UNSAT_INST])

/-- C2 as amended: when the shared bound holds a strictly positive value
(the only situation in which the code's prune guard
`min_total_solving_runtime > 0 && cur >= min` can fire), reaching any
stage with cumulative runtime at least the bound abandons the candidate
as pruned with no further stage executed, and the executed stages of any
evaluation form an initial segment of `[3,4,5,6,7]`, a strict one when
the evaluation was pruned. -/
theorem c2_prune_semantics (min_total : ℚ) (oracle : ℕ → result × ℚ)
    (hset : 0 < min_total) :
    (∀ (n : ℕ) (rest : List ℕ) (cur : ℚ) (unsat : ℕ) (done : List ℕ),
      min_total ≤ cur →
      runStages min_total oracle (n :: rest) cur unsat done =
        ⟨cur, unsat, done, .abandoned .pruned⟩) ∧
    (∃ m, m ≤ 5 ∧ (evalCandidate min_total oracle).executed = STAGES.take m ∧
      ((evalCandidate min_total oracle).disposition = .abandoned .pruned →
        m < 5)) := by
  constructor
  · intro n rest cur unsat done hcur
    exact runStages_prune min_total oracle n rest cur unsat done ⟨hset, hcur⟩
  · obtain ⟨t, h1, h2, h3, h4, h5, h6, h7, h8, h9, h10⟩ :=
      evalCandidate_master min_total oracle
    have hlen : t.length ≤ 5 := by
      have := congrArg List.length h2
      simp only [List.length_take, STAGES] at this
      simp at this
      omega
    refine ⟨t.length, hlen, ?_, fun hd => (h8 hd).1⟩
    rw [h1]
    exact h2

/-- C2, witness: with bound 1 and cumulative runtime already 1 at entry to
stage 3, the stage loop prunes immediately, executing nothing. -/
theorem c2_prune_semantics_witness :
    runStages 1 (fun _ => (result.SAT, 0)) STAGES 1 0 [] =
      ⟨1, 0, [], .abandoned .pruned⟩ := by
  have h := (c2_prune_semantics 1 (fun _ => (result.SAT, 0))
    (by norm_num)).1 3 [4, 5, 6, 7] 1 0 [] (by norm_num)
  rw [show STAGES = 3 :: [4, 5, 6, 7] from rfl]
  exact h

/-- C2, counterexample: after one zero-runtime candidate completes, the
shared bound is set to exactly 0; the next candidate enters stage 3 with
cumulative runtime 0 ≥ 0, yet — because the code's guard requires a
strictly positive bound — every stage still executes and the evaluation
completes, contradicting the claim that a set bound with
`cumulative ≥ bound` stops the stages. -/
theorem c2_counterexample :
    boundAfter (fun _ _ => (result.SAT, 0)) 1 = 0 ∧
    (evalCandidate (boundAfter (fun _ _ => (result.SAT, 0)) 1)
        ((fun _ _ => (result.SAT, 0)) 1)).executed = [3, 4, 5, 6, 7] ∧
    (evalCandidate (boundAfter (fun _ _ => (result.SAT, 0)) 1)
        ((fun _ _ => (result.SAT, 0)) 1)).disposition = .completed := by
  have h0 : boundAfter (fun _ _ => (result.SAT, 0)) 0 = -1 := rfl
  have h1 : boundAfter (fun _ _ => (result.SAT, 0)) 1 =
      updateBound (boundAfter (fun _ _ => (result.SAT, 0)) 0)
        (evalCandidate (boundAfter (fun _ _ => (result.SAT, 0)) 0)
          ((fun _ _ => (result.SAT, 0)) 0)) := rfl
  rw [h0] at h1
  have hb : boundAfter (fun _ _ => (result.SAT, 0)) 1 = 0 := by
    rw [h1]
    norm_num [evalCandidate, STAGES, runStages, MAX_UNSAT_INST, updateBound]
  refine ⟨hb, ?_, ?_⟩ <;> rw [hb] <;>
    norm_num [evalCandidate, STAGES, runStages, MAX_UNSAT_INST]

/-- C10: the prune check can never fire at stage 3 — cumulative runtime is
0 there and the guard needs a strictly positive bound not exceeding it —
so every candidate's stage-3 instance is generated and solved (the
executed list always starts with stage 3); moreover with a bound of
exactly 0 no evaluation is ever pruned at any stage. -/
theorem c10_stage3_always_runs :
    (∀ (min_total : ℚ) (oracle : ℕ → result × ℚ),
      (evalCandidate min_total oracle).executed.head? = some 3) ∧
    (∀ oracle : ℕ → result × ℚ,
      (evalCandidate 0 oracle).disposition ≠ .abandoned .pruned) := by
  constructor
  · intro min_total oracle
    have hpr : ¬(0 < min_total ∧ min_total ≤ (0 : ℚ)) := by
      rintro ⟨hlt, hle⟩
      linarith
    rw [evalCandidate, show STAGES = 3 :: [4, 5, 6, 7] from rfl]
    cases hres : (oracle 3).1 with
    | INTERR =>
      rw [runStages_interr min_total oracle 3 [4, 5, 6, 7] 0 0 [] hpr hres]
      rfl
    | UNSAT =>
      rw [runStages_unsat_step min_total oracle 3 [4, 5, 6, 7] 0 0 [] hpr hres
        (by omega)]
      simp only [zero_add, List.nil_append]
      obtain ⟨t, h1, h2, h3, h4, h5, h6, h7, h8, h9, h10⟩ :=
        runStages_master min_total oracle [4, 5, 6, 7] ((oracle 3).2) 1 [3]
          (by omega)
      rw [h1]
      rfl
    | SAT =>
      rw [runStages_sat_step min_total oracle 3 [4, 5, 6, 7] 0 0 [] hpr hres
        (by omega)]
      simp only [zero_add, List.nil_append]
      obtain ⟨t, h1, h2, h3, h4, h5, h6, h7, h8, h9, h10⟩ :=
        runStages_master min_total oracle [4, 5, 6, 7] ((oracle 3).2) 0 [3]
          (by omega)
      rw [h1]
      rfl
  · intro oracle
    obtain ⟨t, h1, h2, h3, h4, h5, h6, h7, h8, h9, h10⟩ :=
      evalCandidate_master 0 oracle
    intro hd
    exact absurd (h8 hd).2 (lt_irrefl 0)

/-- C10, witness: the invariant evaluated at a concrete bound and oracle:
stage 3 heads the executed list, and with bound exactly 0 the all-`SAT`
zero-runtime evaluation is not pruned. -/
theorem c10_stage3_always_runs_witness :
    (evalCandidate (-1) (fun _ => (result.SAT, 1))).executed.head? = some 3 ∧
    (evalCandidate 0 (fun _ => (result.SAT, 0))).disposition ≠
      .abandoned .pruned :=
  ⟨c10_stage3_always_runs.1 (-1) (fun _ => (result.SAT, 1)),
    c10_stage3_always_runs.2 (fun _ => (result.SAT, 0))⟩

theorem sumRT_nonneg (oracle : ℕ → result × ℚ) (h : ∀ n, 0 ≤ (oracle n).2)
    (l : List ℕ) : 0 ≤ sumRT oracle l := by
  rw [sumRT]
  apply List.sum_nonneg
  intro x hx
  rcases List.mem_map.mp hx with ⟨n, _, rfl⟩
  exact h n

theorem evalCandidate_runtime_nonneg (min_total : ℚ)
    (oracle : ℕ → result × ℚ) (h : ∀ n, 0 ≤ (oracle n).2) :
    0 ≤ (evalCandidate min_total oracle).cur_total_runtime := by
  obtain ⟨t, h1, h2, h3, h4, h5, h6, h7, h8, h9, h10⟩ :=
    evalCandidate_master min_total oracle
  rw [h3]
  exact sumRT_nonneg oracle h t

theorem boundAfter_succ (oracle2 : ℕ → ℕ → result × ℚ) (k : ℕ) :
    boundAfter oracle2 (k + 1) =
      updateBound (boundAfter oracle2 k)
        (evalCandidate (boundAfter oracle2 k) (oracle2 k)) := rfl

/-- If the oracle's runtimes are nonnegative, the bound is either the
sentinel `-1` or a nonnegative value. -/
theorem boundAfter_cases (oracle2 : ℕ → ℕ → result × ℚ)
    (hrt : ∀ k n, 0 ≤ (oracle2 k n).2) (k : ℕ) :
    boundAfter oracle2 k = -1 ∨ 0 ≤ boundAfter oracle2 k := by
  induction k with
  | zero => exact Or.inl rfl
  | succ k ih =>
    rw [boundAfter_succ, updateBound]
    split
    · exact Or.inr (evalCandidate_runtime_nonneg _ _ (hrt k))
    · exact ih

/-- The bound equals the sentinel exactly while no candidate so far has
completed all five stages. -/
theorem boundAfter_unset_iff (oracle2 : ℕ → ℕ → result × ℚ)
    (hrt : ∀ k n, 0 ≤ (oracle2 k n).2) (k : ℕ) :
    boundAfter oracle2 k = -1 ↔
      ∀ j, j < k →
        (evalCandidate (boundAfter oracle2 j) (oracle2 j)).disposition ≠
          .completed := by
  induction k with
  | zero => simp [boundAfter]
  | succ k ih =>
    rw [boundAfter_succ, updateBound]
    by_cases hc : (evalCandidate (boundAfter oracle2 k) (oracle2 k)).disposition
          = .completed ∧
        (boundAfter oracle2 k < 0 ∨
          (evalCandidate (boundAfter oracle2 k) (oracle2 k)).cur_total_runtime <
            boundAfter oracle2 k)
    · rw [if_pos hc]
      have hge : 0 ≤
          (evalCandidate (boundAfter oracle2 k) (oracle2 k)).cur_total_runtime :=
        evalCandidate_runtime_nonneg _ _ (hrt k)
      constructor
      · intro h
        rw [h] at hge
        norm_num at hge
      · intro h
        exact absurd hc.1 (h k (Nat.lt_succ_self k))
    · rw [if_neg hc]
      constructor
      · intro h j hj
        rcases Nat.lt_succ_iff_lt_or_eq.mp hj with hj | rfl
        · exact (ih.mp h) j hj
        · intro hcomp
          exact hc ⟨hcomp, Or.inl (by rw [h]; norm_num)⟩
      · intro h
        exact ih.mpr (fun j hj => h j (Nat.lt_succ_of_lt hj))

/-- Any change of the bound comes from a completed evaluation, takes its
runtime as the new value, and strictly decreases an already-set bound. -/
theorem boundAfter_change (oracle2 : ℕ → ℕ → result × ℚ)
    (hrt : ∀ k n, 0 ≤ (oracle2 k n).2) (k : ℕ)
    (hne : boundAfter oracle2 (k + 1) ≠ boundAfter oracle2 k) :
    (evalCandidate (boundAfter oracle2 k) (oracle2 k)).disposition =
      .completed ∧
    boundAfter oracle2 (k + 1) =
      (evalCandidate (boundAfter oracle2 k) (oracle2 k)).cur_total_runtime ∧
    (boundAfter oracle2 k ≠ -1 →
      boundAfter oracle2 (k + 1) < boundAfter oracle2 k) := by
  rw [boundAfter_succ, updateBound] at hne ⊢
  by_cases hc : (evalCandidate (boundAfter oracle2 k) (oracle2 k)).disposition
        = .completed ∧
      (boundAfter oracle2 k < 0 ∨
        (evalCandidate (boundAfter oracle2 k) (oracle2 k)).cur_total_runtime <
          boundAfter oracle2 k)
  · rw [if_pos hc]
    refine ⟨hc.1, rfl, ?_⟩
    intro hset
    rcases boundAfter_cases oracle2 hrt k with h | h
    · exact absurd h hset
    · rcases hc.2 with hlt | hlt
      · linarith
      · exact hlt
  · rw [if_neg hc] at hne
    exact absurd rfl hne

/-- Once set, the bound never returns to the sentinel. -/
theorem boundAfter_persist (oracle2 : ℕ → ℕ → result × ℚ)
    (hrt : ∀ k n, 0 ≤ (oracle2 k n).2) (k j : ℕ) (hkj : k ≤ j)
    (hk : boundAfter oracle2 k ≠ -1) : boundAfter oracle2 j ≠ -1 := by
  intro hj
  apply hk
  rw [boundAfter_unset_iff oracle2 hrt]
  intro i hi
  exact (boundAfter_unset_iff oracle2 hrt j).mp hj i (lt_of_lt_of_le hi hkj)

/-- C4: over a single worker's run (nonnegative stage runtimes), the bound
`min_total_solving_runtime` stays at its `-1` sentinel exactly until some
candidate completes all five stages; any change of the bound happens on
the completed path only, installs that evaluation's total runtime, and
strictly decreases an already-set bound; consequently from any point
where the bound is set it is non-increasing for the rest of the run. -/
theorem c4_bound_evolution (oracle2 : ℕ → ℕ → result × ℚ)
    (hrt : ∀ k n, 0 ≤ (oracle2 k n).2) :
    (∀ k, boundAfter oracle2 k = -1 ↔
      ∀ j, j < k →
        (evalCandidate (boundAfter oracle2 j) (oracle2 j)).disposition ≠
          .completed) ∧
    (∀ k, boundAfter oracle2 (k + 1) ≠ boundAfter oracle2 k →
      (evalCandidate (boundAfter oracle2 k) (oracle2 k)).disposition =
        .completed ∧
      boundAfter oracle2 (k + 1) =
        (evalCandidate (boundAfter oracle2 k) (oracle2 k)).cur_total_runtime ∧
      (boundAfter oracle2 k ≠ -1 →
        boundAfter oracle2 (k + 1) < boundAfter oracle2 k)) ∧
    (∀ k j, k ≤ j → boundAfter oracle2 k ≠ -1 →
      boundAfter oracle2 j ≤ boundAfter oracle2 k) := by
  refine ⟨boundAfter_unset_iff oracle2 hrt, boundAfter_change oracle2 hrt, ?_⟩
  intro k j hkj hk
  induction j, hkj using Nat.le_induction with
  | base => exact le_refl _
  | succ j hkj ih =>
    have hjne := boundAfter_persist oracle2 hrt k j hkj hk
    by_cases h : boundAfter oracle2 (j + 1) = boundAfter oracle2 j
    · rw [h]
      exact ih
    · have := (boundAfter_change oracle2 hrt j h).2.2 hjne
      linarith

/-- C4, witness: the bound-evolution theorem applied to the all-`SAT`,
unit-runtime oracle; before any candidate is evaluated the bound is the
sentinel. -/
theorem c4_bound_evolution_witness :
    boundAfter (fun _ _ => (result.SAT, 1)) 0 = -1 :=
  (c4_bound_evolution (fun _ _ => (result.SAT, 1))
    (fun _ _ => by norm_num)).1 0 |>.mpr (fun j hj => absurd hj (Nat.not_lt_zero j))

/-- C6: an inconclusive verdict at any stage abandons the candidate at
that stage (only it is appended to the executed stages and nothing after
it runs), an abandoned candidate never updates the bound, and with an
oracle that is inconclusive on every stage of every candidate each
evaluation ends at stage 3 with zero unsatisfiable count while the bound
stays at its `-1` sentinel forever. -/
theorem c6_inconclusive_semantics (oracle2 : ℕ → ℕ → result × ℚ)
    (hall : ∀ k n, (oracle2 k n).1 = result.INTERR) :
    (∀ (min_total : ℚ) (oracle : ℕ → result × ℚ) (n : ℕ) (rest : List ℕ)
        (cur : ℚ) (unsat : ℕ) (done : List ℕ),
      ¬(0 < min_total ∧ min_total ≤ cur) → (oracle n).1 = result.INTERR →
      runStages min_total oracle (n :: rest) cur unsat done =
        ⟨cur + (oracle n).2, unsat, done ++ [n], .abandoned .inconclusive⟩) ∧
    (∀ (min_total : ℚ) (out : EvalOut), out.disposition ≠ .completed →
      updateBound min_total out = min_total) ∧
    (∀ k, boundAfter oracle2 k = -1 ∧
      evalCandidate (boundAfter oracle2 k) (oracle2 k) =
        ⟨(oracle2 k 3).2, 0, [3], .abandoned .inconclusive⟩) := by
  have hstep : ∀ (min_total : ℚ) (oracle : ℕ → result × ℚ) (n : ℕ)
      (rest : List ℕ) (cur : ℚ) (unsat : ℕ) (done : List ℕ),
      ¬(0 < min_total ∧ min_total ≤ cur) → (oracle n).1 = result.INTERR →
      runStages min_total oracle (n :: rest) cur unsat done =
        ⟨cur + (oracle n).2, unsat, done ++ [n], .abandoned .inconclusive⟩ :=
    fun mt oracle n rest cur unsat done hpr hres =>
      runStages_interr mt oracle n rest cur unsat done hpr hres
  have hupd : ∀ (min_total : ℚ) (out : EvalOut),
      out.disposition ≠ .completed → updateBound min_total out = min_total := by
    intro mt out h
    rw [updateBound, if_neg]
    rintro ⟨hc, _⟩
    exact h hc
  have heval : ∀ k, evalCandidate (-1) (oracle2 k) =
      ⟨(oracle2 k 3).2, 0, [3], .abandoned .inconclusive⟩ := by
    intro k
    rw [evalCandidate, show STAGES = 3 :: [4, 5, 6, 7] from rfl,
      hstep (-1) (oracle2 k) 3 [4, 5, 6, 7] 0 0 []
        (by rintro ⟨hlt, hle⟩; linarith) (hall k 3)]
    simp
  have hbound : ∀ k, boundAfter oracle2 k = -1 := by
    intro k
    induction k with
    | zero => rfl
    | succ k ih =>
      rw [boundAfter_succ, ih, hupd (-1)
        (evalCandidate (-1) (oracle2 k)) (by rw [heval k]; simp)]
  refine ⟨hstep, hupd, fun k => ⟨hbound k, ?_⟩⟩
  rw [hbound k]
  exact heval k

/-- C6, witness: the inconclusive-oracle theorem evaluated on the concrete
always-inconclusive unit-runtime oracle after three candidates. -/
theorem c6_inconclusive_semantics_witness :
    boundAfter (fun _ _ => (result.INTERR, 1)) 3 = -1 ∧
    evalCandidate (boundAfter (fun _ _ => (result.INTERR, 1)) 3)
        ((fun _ _ => (result.INTERR, 1)) 3) =
      ⟨1, 0, [3], .abandoned .inconclusive⟩ :=
  (c6_inconclusive_semantics (fun _ _ => (result.INTERR, 1))
    (fun _ _ => rfl)).2.2 3

/-! ## Command line handling (`main`, lines 201–219)

`main` checks `-h` and `-v` only for `argc == 2`, prints usage and fails
for `argc < 2`, and otherwise feeds `argv[1]` to `std::stoi` followed by
`assert(cpu_num > 0)` on the `unsigned` conversion.  `stoi` throws on a
non-numeric or out-of-`int`-range argument; an uncaught exception or a
failed assert terminates the process without printing the usage text. -/

/-- How the process leaves the argument-handling prologue. -/
inductive CliOutcome where
  | usageSuccess : CliOutcome
  | versionSuccess : CliOutcome
  | usageFailure : CliOutcome
  | abortNoUsage : CliOutcome
  | run : ℕ → CliOutcome
deriving DecidableEq, Repr

/-- `std::stoi`: skip leading whitespace, an optional sign, then a
non-empty digit run (trailing junk ignored); `none` models the thrown
`invalid_argument` / `out_of_range` exceptions (`int` is 32-bit). -/
def stoi? (s : String) : Option Int :=
  let cs := s.data.dropWhile
    (fun c => c == ' ' || c == '\t' || c == '\n' || c == '\r')
  let signed : Int × List Char :=
    match cs with
    | '-' :: rest => (-1, rest)
    | '+' :: rest => (1, rest)
    | _ => (1, cs)
  let digits := signed.2.takeWhile Char.isDigit
  if digits = [] then none
  else
    let v : Int :=
      signed.1 * digits.foldl (fun a c => 10 * a + ((c.toNat : Int) - 48)) 0
    if v < -2147483648 ∨ 2147483647 < v then none else some v

/-- The argument-handling prologue of `main`.  `args` is the whole
`argv`, program name included.  The `unsigned cpu_num = stoi(...)`
conversion wraps modulo 2^32 (= 4294967296) and `assert(cpu_num > 0)`
aborts on zero. -/
def cliMain (args : List String) : CliOutcome :=
  if args.length = 2 ∧ args.getD 1 "" = "-h" then .usageSuccess
  else if args.length = 2 ∧ args.getD 1 "" = "-v" then .versionSuccess
  else if args.length < 2 then .usageFailure
  else
    match stoi? (args.getD 1 "") with
    | none => .abortNoUsage
    | some v =>
      if (v % 4294967296).toNat = 0 then .abortNoUsage
      else .run (v % 4294967296).toNat

/-- C9, counterexample: a non-numeric worker-count argument makes `stoi`
throw, terminating the process without printing the usage text — not the
claimed print-usage-and-exit-failure; likewise the non-positive argument
`0` dies on the assert without usage. -/
theorem c9_counterexample :
    cliMain ["find_weak_outputs_skein", "abc"] = .abortNoUsage ∧
    CliOutcome.abortNoUsage ≠ CliOutcome.usageFailure ∧
    cliMain ["find_weak_outputs_skein", "0"] = .abortNoUsage := by
  refine ⟨by decide, by decide, by decide⟩

/-- C9 as amended: `-h` alone prints usage and exits successfully, `-v`
alone prints the version and exits successfully, and a missing argument
prints usage and exits with failure; but an invalid worker count does not
print usage: a non-numeric (or out-of-`int`-range) argument, or one whose
32-bit unsigned conversion is 0, terminates abnormally with no usage
text, and any other value runs with worker count equal to the parsed
value modulo 2^32. -/
theorem c9_cli_semantics :
    (∀ p, cliMain [p, "-h"] = .usageSuccess) ∧
    (∀ p, cliMain [p, "-v"] = .versionSuccess) ∧
    (∀ p, cliMain [p] = .usageFailure) ∧
    cliMain [] = .usageFailure ∧
    (∀ p s, s ≠ "-h" → s ≠ "-v" → stoi? s = none →
      cliMain [p, s] = .abortNoUsage) ∧
    (∀ p s v, s ≠ "-h" → s ≠ "-v" → stoi? s = some v →
      (v % 4294967296).toNat = 0 → cliMain [p, s] = .abortNoUsage) ∧
    (∀ p s v, s ≠ "-h" → s ≠ "-v" → stoi? s = some v →
      (v % 4294967296).toNat ≠ 0 →
      cliMain [p, s] = .run (v % 4294967296).toNat) := by
  refine ⟨?_, ?_, ?_, by decide, ?_, ?_, ?_⟩
  · intro p
    simp [cliMain]
  · intro p
    simp [cliMain]
  · intro p
    simp [cliMain]
  · intro p s hh hv hnone
    simp [cliMain, hh, hv, hnone]
  · intro p s v hh hv hsome hz
    simp [cliMain, hh, hv, hsome, hz]
  · intro p s v hh hv hsome hz
    simp [cliMain, hh, hv, hsome, hz]

/-- C9, witness: the amended CLI theorem evaluated on concrete argument
vectors. -/
theorem c9_cli_semantics_witness :
    cliMain ["find_weak_outputs_skein", "-h"] = .usageSuccess ∧
    cliMain ["find_weak_outputs_skein", "12"] = .run 12 := by
  have h := c9_cli_semantics
  refine ⟨h.1 "find_weak_outputs_skein", ?_⟩
  have h7 := h.2.2.2.2.2.2 "find_weak_outputs_skein" "12" 12
    (by decide) (by decide) (by decide) (by decide)
  simpa using h7

end SkeinSAT
